import Mathlib

/-!
Verification development for the `beevee` BVH core of the pathtracer repository.

The Rust sources are shallowly embedded:

* `f32` values are modelled by `F32`, an exact extended-rational type with the
  IEEE-754 special values that the code actually manipulates (`±∞` from
  `AABB::empty()` and `1.0 / 0.0`, and NaN from invalid operations).  Finite
  arithmetic is exact rational arithmetic; the only places the embedded code
  performs finite arithmetic that `f32` would round (surface areas, SAH costs)
  feed exclusively into values that are either unreachable or compared against
  `∞`, so the rounding difference is never observable in any theorem below.
  `-0.0` and `+0.0` are conflated into `fin 0`; the Rust code only ever
  distinguishes them through `1.0 / x` on components of unit vectors built from
  literals, where the sign is positive in every input considered here.
* Rust panics (out-of-bounds indexing, `expect` on NaN comparisons,
  `Vec::with_capacity` overflow) are modelled with `Except Panic`.
* The generic `Bounded` trait is modelled by passing the `aabb` and `centroid`
  projection functions explicitly, mirroring the Rust type parameters.
-/

deriving instance DecidableEq for Except

attribute [local semireducible] Rat.mul Rat.add Rat.sub Rat.inv

namespace Beevee

/-- Model of `f32`: NaN, `-∞`, finite values (exact rationals), `+∞`. -/
inductive F32 where
  | nan : F32
  | negInf : F32
  | fin (q : ℚ) : F32
  | posInf : F32
deriving DecidableEq

namespace F32

/-- Is this value a NaN? -/
def isNan : F32 → Bool
  | nan => true
  | _ => false

/-- IEEE `<` on `f32`: any comparison with NaN is `false`. -/
def lt : F32 → F32 → Bool
  | nan, _ => false
  | _, nan => false
  | negInf, negInf => false
  | negInf, _ => true
  | _, negInf => false
  | fin a, fin b => a < b
  | fin _, posInf => true
  | posInf, _ => false

/-- IEEE `<=` on `f32`: any comparison with NaN is `false`. -/
def le : F32 → F32 → Bool
  | nan, _ => false
  | _, nan => false
  | negInf, _ => true
  | _, negInf => false
  | fin a, fin b => a ≤ b
  | fin _, posInf => true
  | posInf, posInf => true
  | posInf, fin _ => false

/-- IEEE `==` on `f32` (`PartialEq`): NaN is not equal to anything, itself
included.  `-0.0 == +0.0` holds in `f32`; both are `fin 0` here. -/
def feq : F32 → F32 → Bool
  | nan, _ => false
  | _, nan => false
  | negInf, negInf => true
  | fin a, fin b => a = b
  | posInf, posInf => true
  | _, _ => false

/-- Rust `f32::min`: if one argument is NaN the other is returned, otherwise
the smaller argument. -/
def fmin (a b : F32) : F32 :=
  if a.isNan then b else if b.isNan then a else if lt a b then a else b

/-- Rust `f32::max`: if one argument is NaN the other is returned, otherwise
the larger argument. -/
def fmax (a b : F32) : F32 :=
  if a.isNan then b else if b.isNan then a else if lt b a then a else b

/-- IEEE negation. -/
def neg : F32 → F32
  | nan => nan
  | negInf => posInf
  | fin q => fin (-q)
  | posInf => negInf

/-- IEEE addition (exact in the finite case, see the module comment). -/
def add : F32 → F32 → F32
  | nan, _ => nan
  | _, nan => nan
  | posInf, negInf => nan
  | negInf, posInf => nan
  | posInf, _ => posInf
  | _, posInf => posInf
  | negInf, _ => negInf
  | _, negInf => negInf
  | fin a, fin b => fin (a + b)

/-- IEEE subtraction, `a - b = a + (-b)` exactly as in IEEE-754. -/
def sub (a b : F32) : F32 := add a (neg b)

/-- IEEE multiplication (exact in the finite case); `0 * ±∞ = NaN`. -/
def mul : F32 → F32 → F32
  | nan, _ => nan
  | _, nan => nan
  | posInf, posInf => posInf
  | posInf, negInf => negInf
  | negInf, posInf => negInf
  | negInf, negInf => posInf
  | posInf, fin q => if q > 0 then posInf else if q < 0 then negInf else nan
  | fin q, posInf => if q > 0 then posInf else if q < 0 then negInf else nan
  | negInf, fin q => if q > 0 then negInf else if q < 0 then posInf else nan
  | fin q, negInf => if q > 0 then negInf else if q < 0 then posInf else nan
  | fin a, fin b => fin (a * b)

/-- IEEE division (exact in the finite case).  A zero divisor is treated as
`+0.0`, which matches every division performed by the embedded code. -/
def div : F32 → F32 → F32
  | nan, _ => nan
  | _, nan => nan
  | posInf, posInf => nan
  | posInf, negInf => nan
  | negInf, posInf => nan
  | negInf, negInf => nan
  | posInf, fin q => if q < 0 then negInf else posInf
  | negInf, fin q => if q < 0 then posInf else negInf
  | fin _, posInf => fin 0
  | fin _, negInf => fin 0
  | fin a, fin b =>
    if b = 0 then (if a > 0 then posInf else if a < 0 then negInf else nan)
    else fin (a / b)

instance : Add F32 := ⟨add⟩

instance : Sub F32 := ⟨sub⟩

instance : Mul F32 := ⟨mul⟩

instance : Div F32 := ⟨div⟩

instance : Neg F32 := ⟨neg⟩

instance : OfNat F32 n := ⟨fin n⟩

/-- `usize as f32` casts.  For every count appearing in a theorem below this is
exact; `f32` would round counts above `2^24`, but such a rounded value is only
ever compared against `+∞` or fed into an unreached loop iteration. -/
def ofNat (n : Nat) : F32 := fin n

end F32

/-- The three coordinate axes (`Axis` in `axis.rs`). -/
inductive Axis where
  | X : Axis
  | Y : Axis
  | Z : Axis
deriving DecidableEq

/-- A 3-component tuple of `f32`, standing for both `Point` (`Point3<f32>`)
and `Vector` (`Vector3<f32>`). -/
structure V3 where
  x : F32
  y : F32
  z : F32
deriving DecidableEq

namespace V3

/-- `Index<Axis>` for points and vectors. -/
def get (v : V3) : Axis → F32
  | .X => v.x
  | .Y => v.y
  | .Z => v.z

/-- Componentwise subtraction (`Point - Point`, `Vector - Vector`). -/
instance : Sub V3 := ⟨fun a b => ⟨a.x - b.x, a.y - b.y, a.z - b.z⟩⟩

/-- Componentwise addition (`Point + Vector`). -/
instance : Add V3 := ⟨fun a b => ⟨a.x + b.x, a.y + b.y, a.z + b.z⟩⟩

/-- Division of a vector by a scalar. -/
def divScalar (v : V3) (s : F32) : V3 := ⟨v.x / s, v.y / s, v.z / s⟩

end V3

/-- `AABB` from `aabb/bounding_box.rs`: a low and a high corner. -/
structure AABB where
  low : V3
  high : V3
deriving DecidableEq

namespace AABB

/-- `AABB::empty()`: low at `+∞`, high at `-∞`. -/
def empty : AABB :=
  ⟨⟨.posInf, .posInf, .posInf⟩, ⟨.negInf, .negInf, .negInf⟩⟩

/-- `AABB::with_bounds(low, high)`.  The Rust code `debug_assert!`s
`low <= high` componentwise; the assertion is compiled out in release mode and
the function always returns the raw box. -/
def with_bounds (low high : V3) : AABB := ⟨low, high⟩

/-- `AABB::grow`/`grow_mut`: expand the box to include a point, by a
componentwise `f32::min` on `low` and `f32::max` on `high`. -/
def grow (b : AABB) (p : V3) : AABB :=
  ⟨⟨F32.fmin b.low.x p.x, F32.fmin b.low.y p.y, F32.fmin b.low.z p.z⟩,
   ⟨F32.fmax b.high.x p.x, F32.fmax b.high.y p.y, F32.fmax b.high.z p.z⟩⟩

/-- `AABB::union`/`union_mut`: grow by the other box's low corner, then by its
high corner. -/
def union (a b : AABB) : AABB := (a.grow b.low).grow b.high

/-- `AABB::diagonal()`: `high - low`. -/
def diagonal (b : AABB) : V3 := b.high - b.low

/-- `AABB::centroid()`: `low + diagonal() / 2`. -/
def centroid (b : AABB) : V3 := b.low + (b.diagonal.divScalar 2)

/-- `AABB::surface()`: `2 * (dx*dy + dx*dz + dy*dz)`. -/
def surface (b : AABB) : F32 :=
  let d := b.diagonal
  (2 : F32) * (d.x * d.y + d.x * d.z + d.y * d.z)

/-- The derived `PartialEq` on `AABB`: componentwise `f32` equality. -/
def beq (a b : AABB) : Bool :=
  F32.feq a.low.x b.low.x && F32.feq a.low.y b.low.y && F32.feq a.low.z b.low.z &&
  F32.feq a.high.x b.high.x && F32.feq a.high.y b.high.y && F32.feq a.high.z b.high.z

end AABB

/-- `Ray` from `ray.rs`: origin, unit direction, and the cached componentwise
reciprocal of the direction. -/
structure Ray where
  origin : V3
  direction : V3
  inv_direction : V3
deriving DecidableEq

namespace Ray

/-- `Ray::new`: caches `inv_direction = (1/d.x, 1/d.y, 1/d.z)`.  The argument
is already a unit vector (`Unit<Vector>` in Rust). -/
def new (origin direction : V3) : Ray :=
  ⟨origin, direction,
   ⟨(1 : F32) / direction.x, (1 : F32) / direction.y, (1 : F32) / direction.z⟩⟩

/-- `Ray::aabb_intersection`: the slab test, transcribed from `ray.rs`. -/
def aabb_intersection (r : Ray) (aabb : AABB) : Option F32 :=
  let min_max : Axis → F32 × F32 := fun axis =>
    let a := (aabb.high.get axis - r.origin.get axis) * r.inv_direction.get axis
    let b := (aabb.low.get axis - r.origin.get axis) * r.inv_direction.get axis
    if F32.lt (r.direction.get axis) 0 then (a, b) else (b, a)
  let tx := min_max .X
  let t_min := tx.1
  let t_max := tx.2
  let ty := min_max .Y
  let y_min := ty.1
  let y_max := ty.2
  if F32.lt t_max y_min || F32.lt y_max t_min then none else
  let t_min := if F32.lt t_min y_min then y_min else t_min
  let t_max := if F32.lt y_max t_max then y_max else t_max
  let tz := min_max .Z
  let z_min := tz.1
  let z_max := tz.2
  if F32.lt t_max z_min || F32.lt z_max t_min then none else
  let t_min := if F32.lt t_min z_min then z_min else t_min
  let t_max := if F32.lt z_max t_max then z_max else t_max
  if F32.lt t_max 0 then none
  else if F32.lt t_min 0 then some t_max
  else some t_min

end Ray

/-- The node type of `bvh/tree.rs`.  The Rust `struct Node { bounds, begin,
end, kind: NodeEnum }` with `NodeEnum::{Internal, Leaf}` is flattened into a
single inductive carrying the shared fields in both constructors. -/
inductive Node where
  | leaf (bounds : AABB) (nbegin nend : Nat) : Node
  | internal (bounds : AABB) (nbegin nend : Nat) (left right : Node) : Node
deriving DecidableEq

/-- The `bounds` field of a node. -/
def Node.bounds : Node → AABB
  | .leaf b _ _ => b
  | .internal b _ _ _ _ => b

/-- The `begin` field of a node. -/
def Node.nbegin : Node → Nat
  | .leaf _ b _ => b
  | .internal _ b _ _ _ => b

/-- The `end` field of a node. -/
def Node.nend : Node → Nat
  | .leaf _ _ e => e
  | .internal _ _ e _ _ => e

/-- `struct BVH { tree: Node }`. -/
structure BVH where
  tree : Node
deriving DecidableEq

/-- The ways the embedded construction code can panic.

* `indexOutOfBounds`: slice indexing out of range (in particular
  `right_surfaces[right_count]` in the SAH cost loop, and `&objects[b..e]`).
* `nanComparison`: the `.expect("Can't use NaNs in the SAH computation")` on a
  comparison involving a NaN sort key.
* `capacityOverflow`: `Vec::with_capacity(objects.len() - 1)` when
  `objects.len() == 0` (the subtraction wraps and the allocation request
  panics; in a debug build the subtraction itself panics).
* `outOfFuel` is an artifact of the fuel-based embedding of the recursion in
  `build_node`; `with_max_capacity` supplies more fuel than any execution can
  consume, and no theorem below ever meets this value. -/
inductive Panic where
  | indexOutOfBounds : Panic
  | nanComparison : Panic
  | capacityOverflow : Panic
  | outOfFuel : Panic
deriving DecidableEq

variable {O : Type}

/-- `bounds_from_slice`: fold `union` over the objects' boxes starting from
the empty box.  Note that the callers in `build_node` pass the whole slice,
not the `[begin, end)` sub-range. -/
def bounds_from_slice (aabbF : O → AABB) (objects : List O) : AABB :=
  (objects.map aabbF).foldl (fun acc other => acc.union other) AABB.empty

/-- Insertion of one element for the stable sort below. -/
def insertSorted (leF : O → O → Bool) (o : O) : List O → List O
  | [] => [o]
  | x :: xs => if leF o x then o :: x :: xs else x :: insertSorted leF o xs

/-- A stable sort.  `slice::sort_by` in Rust is also stable, and any two
stable sorts agree on every list whose keys are totally preordered, which is
the case whenever the embedded comparator does not panic. -/
def stableSort (leF : O → O → Bool) : List O → List O
  | [] => []
  | x :: xs => insertSorted leF x (stableSort leF xs)

/-- Does some element of the list have a NaN centroid coordinate on `axis`? -/
def hasNanKey (cenF : O → V3) (axis : Axis) (objects : List O) : Bool :=
  objects.any (fun o => ((cenF o).get axis).isNan)

/-- `objects.sort_by(...)` with the comparator
`lhs.centroid()[axis].partial_cmp(&rhs.centroid()[axis]).expect(...)`.
When the slice has at least two elements, every element takes part in at least
one comparison, so a NaN key panics the `expect`; otherwise the comparator is
a total preorder and the stable sort result is exactly Rust's. -/
def sort_by_centroid (cenF : O → V3) (axis : Axis) (objects : List O) :
    Except Panic (List O) :=
  if 2 ≤ objects.length ∧ hasNanKey cenF axis objects then
    .error .nanComparison
  else
    .ok (stableSort (fun a b => F32.le ((cenF a).get axis) ((cenF b).get axis)) objects)

/-- `pdqselect::select_by(objects, split, ...)` with the same panicking
comparator.  `pdqselect` only guarantees that the element at `split` is the
one a sort would put there, with smaller keys before and larger keys after it;
this call site is unreachable (`compute_sah` never returns a cost below the
slice length, see `compute_sah_ok_char`), so the embedding reuses the stable
sort, which satisfies the selection postcondition. -/
def select_by_centroid (cenF : O → V3) (axis : Axis) (objects : List O)
    (_split : Nat) : Except Panic (List O) :=
  if 2 ≤ objects.length ∧ hasNanKey cenF axis objects then
    .error .nanComparison
  else
    .ok (stableSort (fun a b => F32.le ((cenF a).get axis) ((cenF b).get axis)) objects)

/-- The running prefix-union surfaces of `compute_sah`: starting from the
empty box, union in each box in turn and record the surface after each step. -/
def accSurfaces (acc : AABB) : List AABB → List F32
  | [] => []
  | b :: rest =>
    let acc' := acc.union b
    acc'.surface :: accSurfaces acc' rest

/-- `Vec` indexing: a value when the index is in bounds, a panic otherwise. -/
def vecIndex (l : List F32) (i : Nat) : Except Panic F32 :=
  match l[i]? with
  | some v => .ok v
  | none => .error .indexOutOfBounds

/-- One iteration of the axis loop of `compute_sah`: sort by the centroid on
`axis`, build `left_surfaces` and `right_surfaces` (each of length
`len - 1`), then scan every `left_count in 1..len`, keeping the minimum cost
seen so far.  Indexing `left_surfaces[left_count - 1]` and
`right_surfaces[right_count]` is bounds-checked exactly as Rust's `Vec`
indexing is. -/
def sahAxisPass (aabbF : O → AABB) (cenF : O → V3) (surface : F32)
    (max_cap : Nat) (axis : Axis) (st : List O × Nat × Axis × F32) :
    Except Panic (List O × Nat × Axis × F32) := do
  let objs ← sort_by_centroid cenF axis st.1
  let n := objs.length
  let boxes := objs.map aabbF
  let left_surfaces := accSurfaces AABB.empty (boxes.take (n - 1))
  let right_surfaces := accSurfaces AABB.empty (boxes.reverse.take (n - 1))
  let r ← (List.range' 1 (n - 1)).foldlM
    (fun (acc : Nat × Axis × F32) left_count => do
      let right_count := n - left_count
      let ls ← vecIndex left_surfaces (left_count - 1)
      let rs ← vecIndex right_surfaces right_count
      let cost := (1 : F32) / F32.ofNat max_cap
        + (F32.ofNat left_count * ls + F32.ofNat right_count * rs) / surface
      if F32.lt cost acc.2.2 then pure (left_count, axis, cost)
      else pure acc)
    st.2
  pure (objs, r)

/-- `compute_sah` from `bvh/tree.rs`: starting state `(len / 2, X, +∞)`, one
pass per axis in the order X, Y, Z, threading the (re-sorted) slice through.
An empty slice panics at `Vec::with_capacity(objects.len() - 1)`. -/
def compute_sah (aabbF : O → AABB) (cenF : O → V3) (objects : List O)
    (surface : F32) (max_cap : Nat) :
    Except Panic (List O × Nat × Axis × F32) :=
  if objects.length = 0 then .error .capacityOverflow
  else do
    let st := (objects, objects.length / 2, Axis.X, F32.posInf)
    let st ← sahAxisPass aabbF cenF surface max_cap Axis.X st
    let st ← sahAxisPass aabbF cenF surface max_cap Axis.Y st
    let st ← sahAxisPass aabbF cenF surface max_cap Axis.Z st
    pure st

/-- `build_node` from `bvh/tree.rs`, with an explicit fuel parameter for the
recursion.  Faithfully kept from the source: the bounds are computed from the
*whole* slice (`bounds_from_slice(objects)`), the capacity test compares the
*whole* slice length with `max_cap`, the SAH cost is compared against the
*whole* slice length, and the selection runs on the whole slice at the global
`split` index; only `compute_sah` receives the `[b, e)` sub-slice (whose
extraction panics when the range is invalid, as Rust slicing does).  State is
threaded explicitly: the result carries the (possibly reordered) slice. -/
def build_node (aabbF : O → AABB) (cenF : O → V3) :
    Nat → List O → Nat → Nat → Nat → Except Panic (List O × Node)
  | 0, _, _, _, _ => .error .outOfFuel
  | fuel + 1, objects, b, e, max_cap =>
    let aabb := bounds_from_slice aabbF objects
    if objects.length ≤ max_cap then
      .ok (objects, .leaf aabb b e)
    else if e < b ∨ objects.length < e then .error .indexOutOfBounds
    else
      match compute_sah aabbF cenF ((objects.drop b).take (e - b)) aabb.surface max_cap with
      | .error p => .error p
      | .ok (sorted, split0, axis, cost) =>
        let objects := objects.take b ++ sorted ++ objects.drop e
        if F32.le (F32.ofNat objects.length) cost then
          .ok (objects, .leaf aabb b e)
        else
          let split := if split0 = 0 ∨ e - b - 1 ≤ split0 then b + (e - b) / 2 else b + split0
          match select_by_centroid cenF axis objects split with
          | .error p => .error p
          | .ok objects =>
            match build_node aabbF cenF fuel objects b split max_cap with
            | .error p => .error p
            | .ok (objects, left) =>
              match build_node aabbF cenF fuel objects split e max_cap with
              | .error p => .error p
              | .ok (objects, right) => .ok (objects, .internal aabb b e left right)

/-- `BVH::with_max_capacity(objects, max_cap)`: build from the range
`[0, objects.len())`.  The fuel `objects.length + 1` is positive and exceeds
the depth of any possible recursion. -/
def with_max_capacity (aabbF : O → AABB) (cenF : O → V3)
    (objects : List O) (max_cap : Nat) : Except Panic (List O × BVH) :=
  (build_node aabbF cenF (objects.length + 1) objects 0 objects.length max_cap).map
    (fun r => (r.1, ⟨r.2⟩))

/-- `BVH::build(objects)`: leaf capacity 32. -/
def build (aabbF : O → AABB) (cenF : O → V3) (objects : List O) :
    Except Panic (List O × BVH) :=
  with_max_capacity aabbF cenF objects 32

/-- The inner `check_node` of `BVH::is_sound`.  The `objects[begin..end]`
slice extraction panics when `end` exceeds the slice length (the `begin > end`
case is caught first and returns `false`); `&&` short-circuits exactly as in
Rust. -/
def check_node (aabbF : O → AABB) (objects : List O) : Node → Except Panic Bool
  | .leaf bounds b e =>
    if e < b then .ok false
    else if objects.length < e then .error .indexOutOfBounds
    else .ok (((objects.drop b).take (e - b)).all
      (fun o => AABB.beq (bounds.union (aabbF o)) bounds))
  | .internal bounds b e l r =>
    if e < b then .ok false
    else
      match check_node aabbF objects l with
      | .error p => .error p
      | .ok false => .ok false
      | .ok true =>
        match check_node aabbF objects r with
        | .error p => .error p
        | .ok false => .ok false
        | .ok true =>
          .ok (AABB.beq (bounds.union l.bounds) bounds &&
               AABB.beq (bounds.union r.bounds) bounds)

/-- `BVH::is_sound(objects)`. -/
def is_sound (aabbF : O → AABB) (bvh : BVH) (objects : List O) :
    Except Panic Bool :=
  check_node aabbF objects bvh.tree

/-- The `[begin, end)` ranges of all leaves of a node, left to right. -/
def leafRanges : Node → List (Nat × Nat)
  | .leaf _ b e => [(b, e)]
  | .internal _ _ _ l r => leafRanges l ++ leafRanges r

/-- How many leaf ranges of the list cover the index `i`. -/
def coverCount (rs : List (Nat × Nat)) (i : Nat) : Nat :=
  rs.countP (fun p => decide (p.1 ≤ i ∧ i < p.2))

/-- One leaf-level intersection test of the traversal: test object `i`
against the ray and keep it when it is strictly closer than the running best
distance.  The running state is `(best distance, best object index)`,
initially `(+∞, none)`. -/
def hitUpdate (intersect : Ray → O → Option F32) (ray : Ray)
    (objects : List O) (st : F32 × Option Nat) (i : Nat) : F32 × Option Nat :=
  match objects[i]? with
  | none => st
  | some o =>
    match intersect ray o with
    | none => st
    | some t => if F32.lt t st.1 then (t, some i) else st

/-- Modelled from the spec: the recursive worker of `BVH::walk`, whose Rust
definition is not among the provided sources (only its declaration sites and
callers such as `cast_ray` in `src/pathtracer/src/render/scene.rs` are).
Following spec section 4.5: maintain a running best distance (initially `+∞`)
and best object (initially none); at an internal node run the slab test on
both children's boxes, visit the nearer box first, and skip a child whose box
test returns `None` or a distance not smaller than the current best; at a
leaf, linearly test every object of `[begin, end)` with the external
`intersect` primitive, keeping any strictly closer hit. -/
def walkNode (intersect : Ray → O → Option F32) (ray : Ray)
    (objects : List O) : Node → F32 × Option Nat → F32 × Option Nat
  | .leaf _ b e, st =>
    (List.range' b (e - b)).foldl (hitUpdate intersect ray objects) st
  | .internal _ _ _ l r, st =>
    let dl := ray.aabb_intersection l.bounds
    let dr := ray.aabb_intersection r.bounds
    let rightFirst := match dl, dr with
      | some a, some b => F32.lt b a
      | none, some _ => true
      | _, _ => false
    if rightFirst then
      let st1 := match dr with
        | none => st
        | some t =>
          if F32.lt t st.1 then walkNode intersect ray objects r st else st
      match dl with
      | none => st1
      | some t =>
        if F32.lt t st1.1 then walkNode intersect ray objects l st1 else st1
    else
      let st1 := match dl with
        | none => st
        | some t =>
          if F32.lt t st.1 then walkNode intersect ray objects l st else st
      match dr with
      | none => st1
      | some t =>
        if F32.lt t st1.1 then walkNode intersect ray objects r st1 else st1

/-- Modelled from the spec: `BVH::walk(ray, objects)`, returning the nearest
hit distance and the index of the hit object in the paired slice (the index
models the `&Object` reference), or `None` when nothing is hit. -/
def BVH.walk (intersect : Ray → O → Option F32) (bvh : BVH) (ray : Ray)
    (objects : List O) : Option (F32 × Nat) :=
  let st := walkNode intersect ray objects bvh.tree (F32.posInf, none)
  match st.2 with
  | some i => some (st.1, i)
  | none => none

/-- The brute-force oracle of the spec: scan the slice linearly, calling
`intersect` on every object in order, keeping the strictly closest hit (the
first one on ties). -/
def linear_scan_from (intersect : Ray → O → Option F32) (ray : Ray) :
    Nat → List O → F32 × Option Nat → F32 × Option Nat
  | _, [], st => st
  | i, o :: rest, st =>
    let st' := match intersect ray o with
      | none => st
      | some t => if F32.lt t st.1 then (t, some i) else st
    linear_scan_from intersect ray (i + 1) rest st'

/-- The brute-force linear scan over the whole slice, with the same
return convention as `BVH.walk`. -/
def linear_scan (intersect : Ray → O → Option F32) (ray : Ray)
    (objects : List O) : Option (F32 × Nat) :=
  let st := linear_scan_from intersect ray 0 objects (F32.posInf, none)
  match st.2 with
  | some i => some (st.1, i)
  | none => none

/-! ### Order and lattice facts about the `f32` model -/

namespace F32

theorem isNan_iff (a : F32) : a.isNan = true ↔ a = nan := by
  cases a <;> simp [isNan]

theorem lt_asymm_f {a b : F32} (h : lt a b = true) : lt b a = false := by
  cases a <;> cases b <;> simp_all [lt]
  linarith

theorem lt_trans_f {a b c : F32} (h1 : lt a b = true) (h2 : lt b c = true) :
    lt a c = true := by
  cases a <;> cases b <;> cases c <;> simp_all [lt]
  linarith

theorem eq_of_not_lt {a b : F32} (ha : a.isNan = false) (hb : b.isNan = false)
    (h1 : lt a b = false) (h2 : lt b a = false) : a = b := by
  cases a <;> cases b <;> simp_all [lt, isNan]
  linarith

theorem fmin_nn {a b : F32} (ha : a.isNan = false) (hb : b.isNan = false) :
    fmin a b = if lt a b = true then a else b := by
  simp [fmin, ha, hb]

theorem fmax_nn {a b : F32} (ha : a.isNan = false) (hb : b.isNan = false) :
    fmax a b = if lt b a = true then a else b := by
  simp [fmax, ha, hb]

theorem fmin_self (a : F32) : fmin a a = a := by
  cases a <;> simp [fmin, lt, isNan]

theorem fmax_self (a : F32) : fmax a a = a := by
  cases a <;> simp [fmax, lt, isNan]

theorem fmin_choice (a b : F32) : fmin a b = a ∨ fmin a b = b := by
  unfold fmin
  split_ifs <;> simp

theorem fmax_choice (a b : F32) : fmax a b = a ∨ fmax a b = b := by
  unfold fmax
  split_ifs <;> simp

theorem fmin_comm (a b : F32) : fmin a b = fmin b a := by
  by_cases ha : a.isNan = true
  · rw [(isNan_iff a).mp ha]
    cases b <;> simp [fmin, isNan]
  · by_cases hb : b.isNan = true
    · rw [(isNan_iff b).mp hb]
      cases a <;> simp [fmin, isNan]
    · rw [fmin_nn (by simpa using ha) (by simpa using hb),
        fmin_nn (by simpa using hb) (by simpa using ha)]
      by_cases h1 : lt a b = true
      · simp [h1, lt_asymm_f h1]
      · by_cases h2 : lt b a = true
        · simp [h1, h2]
        · simp only [h1, h2, if_false]
          exact eq_of_not_lt (by simpa using hb) (by simpa using ha)
            (by simpa using h2) (by simpa using h1)

theorem fmax_comm (a b : F32) : fmax a b = fmax b a := by
  by_cases ha : a.isNan = true
  · rw [(isNan_iff a).mp ha]
    cases b <;> simp [fmax, isNan]
  · by_cases hb : b.isNan = true
    · rw [(isNan_iff b).mp hb]
      cases a <;> simp [fmax, isNan]
    · rw [fmax_nn (by simpa using ha) (by simpa using hb),
        fmax_nn (by simpa using hb) (by simpa using ha)]
      by_cases h1 : lt a b = true
      · simp [h1, lt_asymm_f h1]
      · by_cases h2 : lt b a = true
        · simp [h1, h2]
        · simp only [h1, h2, if_false]
          exact eq_of_not_lt (by simpa using hb) (by simpa using ha)
            (by simpa using h2) (by simpa using h1)

theorem fmin_nan_right (a : F32) : fmin a nan = a := by
  cases a <;> simp [fmin, isNan]

theorem fmax_nan_right (a : F32) : fmax a nan = a := by
  cases a <;> simp [fmax, isNan]

/-- Absorption is transitive: if `y` absorbs `m` and `m` absorbs `x`, then
`y` absorbs `x`. -/
theorem fmin_abs_trans {y m x : F32} (h1 : fmin y m = y) (h2 : fmin m x = m) :
    fmin y x = y := by
  by_cases hm : m.isNan = true
  · rw [(isNan_iff m).mp hm] at h2
    have hx : x = nan := by simpa [fmin, isNan] using h2
    rw [hx]
    exact fmin_nan_right y
  · by_cases hy : y.isNan = true
    · rw [(isNan_iff y).mp hy] at h1
      have hmn : m = nan := by simpa [fmin, isNan] using h1
      rw [hmn] at hm
      simp [isNan] at hm
    · by_cases hx : x.isNan = true
      · rw [(isNan_iff x).mp hx]
        exact fmin_nan_right y
      · replace hm : m.isNan = false := by simpa using hm
        replace hy : y.isNan = false := by simpa using hy
        replace hx : x.isNan = false := by simpa using hx
        rw [fmin_nn hy hm] at h1
        rw [fmin_nn hm hx] at h2
        rw [fmin_nn hy hx]
        by_cases hym : lt y m = true
        · by_cases hmx : lt m x = true
          · simp [lt_trans_f hym hmx]
          · simp [hmx] at h2
            rw [h2]
            simp [hym]
        · simp [hym] at h1
          rw [h1] at h2
          exact h2

theorem fmax_abs_trans {y m x : F32} (h1 : fmax y m = y) (h2 : fmax m x = m) :
    fmax y x = y := by
  by_cases hm : m.isNan = true
  · rw [(isNan_iff m).mp hm] at h2
    have hx : x = nan := by simpa [fmax, isNan] using h2
    rw [hx]
    exact fmax_nan_right y
  · by_cases hy : y.isNan = true
    · rw [(isNan_iff y).mp hy] at h1
      have hmn : m = nan := by simpa [fmax, isNan] using h1
      rw [hmn] at hm
      simp [isNan] at hm
    · by_cases hx : x.isNan = true
      · rw [(isNan_iff x).mp hx]
        exact fmax_nan_right y
      · replace hm : m.isNan = false := by simpa using hm
        replace hy : y.isNan = false := by simpa using hy
        replace hx : x.isNan = false := by simpa using hx
        rw [fmax_nn hy hm] at h1
        rw [fmax_nn hm hx] at h2
        rw [fmax_nn hy hx]
        by_cases hym : lt m y = true
        · by_cases hmx : lt x m = true
          · simp [lt_trans_f hmx hym]
          · simp [hmx] at h2
            rw [h2]
            simp [hym]
        · simp [hym] at h1
          rw [h1] at h2
          exact h2

/-- `fmin m x = m` is preserved when more values are folded into `m`. -/
theorem fmin_absorb_mono {m x : F32} (y : F32) (h : fmin m x = m) :
    fmin (fmin m y) x = fmin m y := by
  rcases fmin_choice m y with hc | hc <;> rw [hc]
  · exact h
  · rw [fmin_comm m y] at hc
    exact fmin_abs_trans hc h

theorem fmax_absorb_mono {m x : F32} (y : F32) (h : fmax m x = m) :
    fmax (fmax m y) x = fmax m y := by
  rcases fmax_choice m y with hc | hc <;> rw [hc]
  · exact h
  · rw [fmax_comm m y] at hc
    exact fmax_abs_trans hc h

/-- Folding `x` into `m` produces a value that absorbs `x`. -/
theorem fmin_absorb_self (m x : F32) : fmin (fmin m x) x = fmin m x := by
  rcases fmin_choice m x with hc | hc <;> rw [hc]
  · exact hc
  · exact fmin_self x

theorem fmax_absorb_self (m x : F32) : fmax (fmax m x) x = fmax m x := by
  rcases fmax_choice m x with hc | hc <;> rw [hc]
  · exact hc
  · exact fmax_self x

theorem isNan_fmin {a : F32} (b : F32) (ha : a.isNan = false) :
    (fmin a b).isNan = false := by
  rcases fmin_choice a b with hc | hc <;> rw [hc]
  · exact ha
  · unfold fmin at hc
    split_ifs at hc with h1 h2
    · cases b <;> simp_all [isNan]
    · rw [← hc]
      exact ha
    all_goals simpa using h2

theorem isNan_fmax {a : F32} (b : F32) (ha : a.isNan = false) :
    (fmax a b).isNan = false := by
  rcases fmax_choice a b with hc | hc <;> rw [hc]
  · exact ha
  · unfold fmax at hc
    split_ifs at hc with h1 h2
    · cases b <;> simp_all [isNan]
    · rw [← hc]
      exact ha
    all_goals simpa using h2

theorem feq_refl {a : F32} (ha : a.isNan = false) : feq a a = true := by
  cases a <;> simp_all [feq, isNan]

/-- Folding `u` then `v` into `L` yields a value stable under re-folding
`u` and `v`. -/
theorem fmin_grow2 (L u v : F32) :
    fmin (fmin (fmin (fmin L u) v) u) v = fmin (fmin L u) v := by
  rw [fmin_absorb_mono v (fmin_absorb_self L u)]
  exact fmin_absorb_self (fmin L u) v

theorem fmax_grow2 (L u v : F32) :
    fmax (fmax (fmax (fmax L u) v) u) v = fmax (fmax L u) v := by
  rw [fmax_absorb_mono v (fmax_absorb_self L u)]
  exact fmax_absorb_self (fmax L u) v

/-- A value that absorbs `u` then `v` in sequence absorbs each of them. -/
theorem fmin_absorb_split {L u v : F32} (h : fmin (fmin L u) v = L) :
    fmin L u = L ∧ fmin L v = L := by
  rcases fmin_choice L u with hc | hc
  · rw [hc] at h
    exact ⟨hc, h⟩
  · rw [hc] at h
    rcases fmin_choice u v with hd | hd
    · rw [hd] at h
      constructor
      · rw [← h, fmin_self]
      · rw [← h, hd]
    · rw [hd] at h
      subst h
      have hvu : v = u := by rw [← hd, fmin_comm, hc]
      constructor
      · rw [hc, hvu]
      · exact fmin_self v

theorem fmax_absorb_split {L u v : F32} (h : fmax (fmax L u) v = L) :
    fmax L u = L ∧ fmax L v = L := by
  rcases fmax_choice L u with hc | hc
  · rw [hc] at h
    exact ⟨hc, h⟩
  · rw [hc] at h
    rcases fmax_choice u v with hd | hd
    · rw [hd] at h
      constructor
      · rw [← h, fmax_self]
      · rw [← h, hd]
    · rw [hd] at h
      subst h
      have hvu : v = u := by rw [← hd, fmax_comm, hc]
      constructor
      · rw [hc, hvu]
      · exact fmax_self v

end F32

namespace AABB

open F32

/-- All six coordinates of the box are non-NaN. -/
def NoNan (b : AABB) : Prop :=
  b.low.x.isNan = false ∧ b.low.y.isNan = false ∧ b.low.z.isNan = false ∧
  b.high.x.isNan = false ∧ b.high.y.isNan = false ∧ b.high.z.isNan = false

theorem empty_noNan : NoNan empty := by
  refine ⟨rfl, rfl, rfl, rfl, rfl, rfl⟩

theorem union_noNan {a : AABB} (b : AABB) (ha : NoNan a) : NoNan (a.union b) := by
  obtain ⟨h1, h2, h3, h4, h5, h6⟩ := ha
  exact ⟨isNan_fmin _ (isNan_fmin _ h1), isNan_fmin _ (isNan_fmin _ h2),
    isNan_fmin _ (isNan_fmin _ h3), isNan_fmax _ (isNan_fmax _ h4),
    isNan_fmax _ (isNan_fmax _ h5), isNan_fmax _ (isNan_fmax _ h6)⟩

theorem beq_refl_box {b : AABB} (hb : NoNan b) : beq b b = true := by
  obtain ⟨h1, h2, h3, h4, h5, h6⟩ := hb
  simp [beq, feq_refl, h1, h2, h3, h4, h5, h6]

/-- Unioning the same box in twice changes nothing the second time. -/
theorem union_absorb_self (a b : AABB) : (a.union b).union b = a.union b := by
  simp only [union, grow]
  simp only [AABB.mk.injEq, V3.mk.injEq]
  exact ⟨⟨fmin_grow2 _ _ _, fmin_grow2 _ _ _, fmin_grow2 _ _ _⟩,
    fmax_grow2 _ _ _, fmax_grow2 _ _ _, fmax_grow2 _ _ _⟩

/-- A box that absorbs `b` still absorbs `b` after any further union. -/
theorem union_absorb_mono {a b : AABB} (c : AABB) (h : a.union b = a) :
    (a.union c).union b = a.union c := by
  have hlx := congrArg (fun t => t.low.x) h
  have hly := congrArg (fun t => t.low.y) h
  have hlz := congrArg (fun t => t.low.z) h
  have hhx := congrArg (fun t => t.high.x) h
  have hhy := congrArg (fun t => t.high.y) h
  have hhz := congrArg (fun t => t.high.z) h
  simp only [union, grow] at hlx hly hlz hhx hhy hhz
  obtain ⟨hlx1, hlx2⟩ := fmin_absorb_split hlx
  obtain ⟨hly1, hly2⟩ := fmin_absorb_split hly
  obtain ⟨hlz1, hlz2⟩ := fmin_absorb_split hlz
  obtain ⟨hhx1, hhx2⟩ := fmax_absorb_split hhx
  obtain ⟨hhy1, hhy2⟩ := fmax_absorb_split hhy
  obtain ⟨hhz1, hhz2⟩ := fmax_absorb_split hhz
  simp only [union, grow]
  simp only [AABB.mk.injEq, V3.mk.injEq]
  refine ⟨⟨?_, ?_, ?_⟩, ?_, ?_, ?_⟩
  · rw [fmin_absorb_mono _ (fmin_absorb_mono _ hlx1),
      fmin_absorb_mono _ (fmin_absorb_mono _ hlx2)]
  · rw [fmin_absorb_mono _ (fmin_absorb_mono _ hly1),
      fmin_absorb_mono _ (fmin_absorb_mono _ hly2)]
  · rw [fmin_absorb_mono _ (fmin_absorb_mono _ hlz1),
      fmin_absorb_mono _ (fmin_absorb_mono _ hlz2)]
  · rw [fmax_absorb_mono _ (fmax_absorb_mono _ hhx1),
      fmax_absorb_mono _ (fmax_absorb_mono _ hhx2)]
  · rw [fmax_absorb_mono _ (fmax_absorb_mono _ hhy1),
      fmax_absorb_mono _ (fmax_absorb_mono _ hhy2)]
  · rw [fmax_absorb_mono _ (fmax_absorb_mono _ hhz1),
      fmax_absorb_mono _ (fmax_absorb_mono _ hhz2)]

end AABB

/-- Once an accumulator absorbs `bx`, the whole left fold of `union` over any
further boxes still absorbs `bx`. -/
theorem foldl_union_absorb_of (boxes : List AABB) (acc bx : AABB)
    (h : acc.union bx = acc) :
    (boxes.foldl AABB.union acc).union bx = boxes.foldl AABB.union acc := by
  induction boxes generalizing acc with
  | nil => exact h
  | cons c rest ih => exact ih (acc.union c) (AABB.union_absorb_mono c h)

/-- The fold of `union` over a list of boxes absorbs every member. -/
theorem foldl_union_absorb_mem (boxes : List AABB) (acc bx : AABB)
    (h : bx ∈ boxes) :
    (boxes.foldl AABB.union acc).union bx = boxes.foldl AABB.union acc := by
  induction boxes generalizing acc with
  | nil => cases h
  | cons c rest ih =>
    rcases List.mem_cons.mp h with rfl | hmem
    · exact foldl_union_absorb_of rest (acc.union bx) bx (AABB.union_absorb_self acc bx)
    · exact ih (acc.union c) hmem

theorem foldl_union_noNan (boxes : List AABB) (acc : AABB)
    (h : AABB.NoNan acc) : AABB.NoNan (boxes.foldl AABB.union acc) := by
  induction boxes generalizing acc with
  | nil => exact h
  | cons c rest ih => exact ih (acc.union c) (AABB.union_noNan c h)

theorem bounds_from_slice_absorb (aabbF : O → AABB) (objects : List O)
    {o : O} (ho : o ∈ objects) :
    (bounds_from_slice aabbF objects).union (aabbF o) =
      bounds_from_slice aabbF objects :=
  foldl_union_absorb_mem (objects.map aabbF) AABB.empty (aabbF o)
    (List.mem_map_of_mem aabbF ho)

theorem bounds_from_slice_noNan (aabbF : O → AABB) (objects : List O) :
    AABB.NoNan (bounds_from_slice aabbF objects) :=
  foldl_union_noNan (objects.map aabbF) AABB.empty AABB.empty_noNan

/-! ### Behaviour of `compute_sah` -/

theorem except_bind_ok {ε α β : Type} (a : α) (f : α → Except ε β) :
    (Except.ok a >>= f) = f a := rfl

theorem except_bind_err {ε α β : Type} (e : ε) (f : α → Except ε β) :
    ((Except.error e : Except ε α) >>= f) = Except.error e := rfl

theorem vecIndex_lt {l : List F32} {i : Nat} (h : i < l.length) :
    vecIndex l i = .ok l[i] := by
  simp [vecIndex, List.getElem?_eq_getElem h]

theorem vecIndex_ge {l : List F32} {i : Nat} (h : l.length ≤ i) :
    vecIndex l i = .error .indexOutOfBounds := by
  simp [vecIndex, List.getElem?_eq_none h]

theorem length_insertSorted (leF : O → O → Bool) (o : O) (l : List O) :
    (insertSorted leF o l).length = l.length + 1 := by
  induction l with
  | nil => rfl
  | cons x xs ih =>
    simp only [insertSorted]
    split_ifs <;> simp [ih]

theorem length_stableSort (leF : O → O → Bool) (l : List O) :
    (stableSort leF l).length = l.length := by
  induction l with
  | nil => rfl
  | cons x xs ih => simp [stableSort, length_insertSorted, ih]

theorem sort_by_centroid_length {cenF : O → V3} {axis : Axis}
    {objects objs : List O}
    (h : sort_by_centroid cenF axis objects = .ok objs) :
    objs.length = objects.length := by
  unfold sort_by_centroid at h
  by_cases hc : (2 ≤ objects.length ∧ hasNanKey cenF axis objects = true)
  · rw [if_pos hc] at h
    cases h
  · rw [if_neg hc] at h
    injection h with h'
    rw [← h']
    exact length_stableSort _ _

theorem length_accSurfaces (acc : AABB) (l : List AABB) :
    (accSurfaces acc l).length = l.length := by
  induction l generalizing acc with
  | nil => rfl
  | cons b rest ih => simp [accSurfaces, ih]

/-- Whenever a slice of at least two objects reaches the SAH cost loop, the
very first iteration (`left_count = 1`) indexes `right_surfaces` at
`len - 1`, one past its last element, and panics. -/
theorem sahAxisPass_err (aabbF : O → AABB) (cenF : O → V3) (surface : F32)
    (max_cap : Nat) (axis : Axis) (st : List O × Nat × Axis × F32)
    (h2 : 2 ≤ st.1.length) :
    ∃ p, sahAxisPass aabbF cenF surface max_cap axis st = .error p := by
  unfold sahAxisPass
  cases hsort : sort_by_centroid cenF axis st.1 with
  | error p => exact ⟨p, rfl⟩
  | ok objs =>
    simp only [except_bind_ok]
    have hn : objs.length = st.1.length := sort_by_centroid_length hsort
    have hlenL : (accSurfaces AABB.empty ((objs.map aabbF).take (objs.length - 1))).length
        = objs.length - 1 := by
      rw [length_accSurfaces, List.length_take, List.length_map]
      omega
    have hlenR : (accSurfaces AABB.empty ((objs.map aabbF).reverse.take (objs.length - 1))).length
        = objs.length - 1 := by
      rw [length_accSurfaces, List.length_take, List.length_reverse, List.length_map]
      omega
    obtain ⟨k, hk⟩ : ∃ k, objs.length - 1 = k + 1 := ⟨objs.length - 2, by omega⟩
    refine ⟨.indexOutOfBounds, ?_⟩
    have hrange : List.range' 1 (objs.length - 1) = 1 :: List.range' 2 k := by
      rw [hk, List.range'_succ]
    have hfirst := vecIndex_lt
      (l := accSurfaces AABB.empty ((objs.map aabbF).take (objs.length - 1)))
      (i := 1 - 1) (by omega)
    have hsecond : vecIndex
        (accSurfaces AABB.empty ((objs.map aabbF).reverse.take (objs.length - 1)))
        (objs.length - 1) = .error .indexOutOfBounds := vecIndex_ge (by omega)
    rw [hrange, List.foldlM_cons]
    simp only [hfirst, except_bind_ok, hsecond, except_bind_err]

/-- On a singleton slice each axis pass is the identity on the state and the
minimum cost stays `+∞` (no candidate split exists). -/
theorem compute_sah_ok_one (aabbF : O → AABB) (cenF : O → V3) (o : O)
    (surface : F32) (max_cap : Nat) :
    compute_sah aabbF cenF [o] surface max_cap
      = .ok ([o], 0, Axis.X, F32.posInf) := by
  unfold compute_sah
  rw [if_neg (by simp : ¬ [o].length = 0)]
  have h2 : [o].length / 2 = 0 := by simp
  rw [h2]
  rfl

/-- `compute_sah` on an empty slice panics at `Vec::with_capacity(0 - 1)`. -/
theorem compute_sah_nil (aabbF : O → AABB) (cenF : O → V3)
    (surface : F32) (max_cap : Nat) :
    compute_sah aabbF cenF ([] : List O) surface max_cap
      = .error .capacityOverflow := rfl

/-- `compute_sah` panics on every slice of two or more objects. -/
theorem compute_sah_err_of_two (aabbF : O → AABB) (cenF : O → V3)
    (objects : List O) (surface : F32) (max_cap : Nat)
    (h2 : 2 ≤ objects.length) :
    ∃ p, compute_sah aabbF cenF objects surface max_cap = .error p := by
  unfold compute_sah
  rw [if_neg (by omega)]
  obtain ⟨p, hp⟩ := sahAxisPass_err aabbF cenF surface max_cap Axis.X
    (objects, objects.length / 2, Axis.X, F32.posInf) h2
  refine ⟨p, ?_⟩
  show (sahAxisPass aabbF cenF surface max_cap Axis.X
      (objects, objects.length / 2, Axis.X, F32.posInf) >>= _) = _
  rw [hp, except_bind_err]

/-- The only way `compute_sah` returns normally is on a singleton slice, with
split index `0`, axis `X` and cost `+∞`. -/
theorem compute_sah_ok_char {aabbF : O → AABB} {cenF : O → V3}
    {objects : List O} {surface : F32} {max_cap : Nat}
    {r : List O × Nat × Axis × F32}
    (h : compute_sah aabbF cenF objects surface max_cap = .ok r) :
    objects.length = 1 ∧ r = (objects, 0, Axis.X, F32.posInf) := by
  rcases objects with _ | ⟨o, _ | ⟨o2, rest⟩⟩
  · rw [compute_sah_nil] at h
    cases h
  · rw [compute_sah_ok_one] at h
    injection h with h'
    exact ⟨rfl, h'.symm⟩
  · obtain ⟨p, hp⟩ := compute_sah_err_of_two aabbF cenF (o :: o2 :: rest)
      surface max_cap (by simp)
    rw [hp] at h
    cases h

/-! ### Behaviour of `build_node` and `with_max_capacity` -/

/-- Any slice no longer than the capacity immediately becomes a single leaf
over the untouched slice. -/
theorem wmc_ok_of_le {aabbF : O → AABB} {cenF : O → V3} {objects : List O}
    {max_cap : Nat} (h : objects.length ≤ max_cap) :
    with_max_capacity aabbF cenF objects max_cap
      = .ok (objects, ⟨.leaf (bounds_from_slice aabbF objects) 0 objects.length⟩) := by
  unfold with_max_capacity build_node
  rw [if_pos h]
  rfl

/-- A singleton slice becomes a single leaf for every capacity, `0` included:
with `max_cap = 0` the slice reaches the SAH evaluation, which returns cost
`+∞`, and `∞ ≥ 1` takes the no-split fallback. -/
theorem wmc_ok_one (aabbF : O → AABB) (cenF : O → V3) (o : O) (max_cap : Nat) :
    with_max_capacity aabbF cenF [o] max_cap
      = .ok ([o], ⟨.leaf (bounds_from_slice aabbF [o]) 0 1⟩) := by
  rcases max_cap with _ | c
  · unfold with_max_capacity build_node
    rw [if_neg (by simp)]
    rw [if_neg (by simp)]
    have harg : (([o].drop 0).take ([o].length - 0)) = [o] := by simp
    rw [harg, compute_sah_ok_one]
    show Except.map _ (if F32.le (F32.ofNat ([o].take 0 ++ [o] ++ [o].drop [o].length).length)
        F32.posInf = true then _ else _) = _
    rw [if_pos (by simp [F32.le, F32.ofNat])]
    simp
    rfl
  · rw [wmc_ok_of_le (by simp)]
    simp

/-- Any slice that is both longer than the capacity and of length at least
two makes `with_max_capacity` panic inside the SAH cost loop(or, with NaN
centroid keys, inside the sort). -/
theorem wmc_err {aabbF : O → AABB} {cenF : O → V3} {objects : List O}
    {max_cap : Nat} (h2 : 2 ≤ objects.length) (hc : max_cap < objects.length) :
    ∃ p, with_max_capacity aabbF cenF objects max_cap = .error p := by
  unfold with_max_capacity build_node
  rw [if_neg (by omega)]
  rw [if_neg (by omega)]
  have harg : ((objects.drop 0).take (objects.length - 0)) = objects := by simp
  rw [harg]
  obtain ⟨p, hp⟩ := compute_sah_err_of_two aabbF cenF objects
    (bounds_from_slice aabbF objects).surface max_cap h2
  rw [hp]
  exact ⟨p, rfl⟩

/-- Every normal return of `with_max_capacity` is the untouched slice paired
with a single root leaf covering `[0, n)`; no `Internal` node is ever built
on a non-panicking path. -/
theorem wmc_ok_char {aabbF : O → AABB} {cenF : O → V3} {objects : List O}
    {max_cap : Nat} {r : List O × BVH}
    (h : with_max_capacity aabbF cenF objects max_cap = .ok r) :
    r = (objects, ⟨.leaf (bounds_from_slice aabbF objects) 0 objects.length⟩) := by
  rcases le_or_lt objects.length max_cap with hle | hlt
  · rw [wmc_ok_of_le hle] at h
    injection h with h'
    exact h'.symm
  · rcases objects with _ | ⟨o, _ | ⟨o2, rest⟩⟩
    · exact absurd hlt (by simp)
    · rw [wmc_ok_one] at h
      injection h with h'
      simpa using h'.symm
    · obtain ⟨p, hp⟩ := wmc_err (by simp) hlt
      rw [hp] at h
      cases h

/-- The bounds stored in any node returned by `build_node` are the fold of
`union` over the boxes of the *entire* slice passed in, whatever the
`[b, e)` range is: every constructed node stores the `aabb` computed by
`bounds_from_slice(objects)` at entry. -/
theorem build_node_bounds {aabbF : O → AABB} {cenF : O → V3} {fuel : Nat}
    {objects : List O} {b e max_cap : Nat} {res : List O × Node}
    (h : build_node aabbF cenF fuel objects b e max_cap = .ok res) :
    res.2.bounds = bounds_from_slice aabbF objects := by
  cases fuel with
  | zero => cases h
  | succ fuel =>
    unfold build_node at h
    split at h
    · injection h with h'
      rw [← h']
      rfl
    · split at h
      · cases h
      · dsimp only at h
        split at h
        · cases h
        · split at h
          · injection h with h'
            rw [← h']
            rfl
          · split at h
            · cases h
            · split at h
              · cases h
              · split at h
                · cases h
                · injection h with h'
                  rw [← h']
                  rfl

/-- `is_sound` accepts the single root leaf that construction produces:
the leaf bounds absorb every object of the slice. -/
theorem is_sound_root_leaf (aabbF : O → AABB) (objects : List O) :
    is_sound aabbF ⟨.leaf (bounds_from_slice aabbF objects) 0 objects.length⟩
      objects = .ok true := by
  unfold is_sound check_node
  rw [if_neg (by omega)]
  rw [if_neg (by omega)]
  have harg : (objects.drop 0).take (objects.length - 0) = objects := by simp
  rw [harg]
  suffices hall : (objects.all fun o =>
      AABB.beq ((bounds_from_slice aabbF objects).union (aabbF o))
        (bounds_from_slice aabbF objects)) = true by rw [hall]
  rw [List.all_eq_true]
  intro o ho
  rw [bounds_from_slice_absorb aabbF objects ho]
  exact AABB.beq_refl_box (bounds_from_slice_noNan aabbF objects)

/-- In the single-root-leaf tree every index below `n` is covered by exactly
one leaf range. -/
theorem coverCount_root_leaf (bounds : AABB) (n i : Nat) (hi : i < n) :
    coverCount (leafRanges (.leaf bounds 0 n)) i = 1 := by
  simp [coverCount, leafRanges, List.countP_cons, Nat.zero_le, hi]

/-- The leaf-level scan of the traversal, driven by an index range into the
full slice, is the plain linear scan of the tail it covers. -/
theorem foldl_hitUpdate_eq_scan (intersect : Ray → O → Option F32) (ray : Ray)
    (full : List O) :
    ∀ (l : List O) (b : Nat), full.drop b = l → ∀ st,
      (List.range' b l.length).foldl (hitUpdate intersect ray full) st
        = linear_scan_from intersect ray b l st := by
  intro l
  induction l with
  | nil => intro b _ st; rfl
  | cons o rest ih =>
    intro b hdrop st
    have hget : full[b]? = some o := by
      have h0 : (full.drop b)[0]? = some o := by rw [hdrop]; simp
      rwa [List.getElem?_drop, Nat.add_zero] at h0
    have hdrop' : full.drop (b + 1) = rest := by
      have := congrArg (fun t => List.drop 1 t) hdrop
      simpa [List.drop_drop, Nat.add_comm] using this
    rw [List.length_cons, List.range'_succ, List.foldl_cons]
    have hstep : hitUpdate intersect ray full st b
        = (match intersect ray o with
           | none => st
           | some t => if F32.lt t st.1 then (t, some b) else st) := by
      unfold hitUpdate
      rw [hget]
    rw [hstep]
    exact ih (b + 1) hdrop' _

/-- On the single root leaf that construction produces, the traversal is
exactly the brute-force linear scan. -/
theorem walk_root_leaf (intersect : Ray → O → Option F32) (ray : Ray)
    (objects : List O) (bounds : AABB) :
    BVH.walk intersect ⟨.leaf bounds 0 objects.length⟩ ray objects
      = linear_scan intersect ray objects := by
  unfold BVH.walk linear_scan walkNode
  rw [Nat.sub_zero]
  rw [foldl_hitUpdate_eq_scan intersect ray objects objects 0 (List.drop_zero objects)]

/-! ### Union with the empty box -/

theorem F32.le_no_nan {a b : F32} (h : F32.le a b = true) :
    a.isNan = false ∧ b.isNan = false := by
  cases a <;> cases b <;> simp_all [F32.le, F32.isNan]

theorem F32.lt_false_of_le {a b : F32} (h : F32.le a b = true) :
    F32.lt b a = false := by
  cases a <;> cases b <;> simp_all [F32.le, F32.lt]

theorem F32.fmin_of_le {a b : F32} (h : F32.le a b = true) : F32.fmin a b = a := by
  obtain ⟨ha, hb⟩ := F32.le_no_nan h
  rw [F32.fmin_nn ha hb]
  by_cases hlt : F32.lt a b = true
  · simp [hlt]
  · simp only [hlt, if_false]
    exact F32.eq_of_not_lt hb ha (F32.lt_false_of_le h) (by simpa using hlt)

theorem F32.fmax_of_le {a b : F32} (h : F32.le a b = true) : F32.fmax a b = b := by
  obtain ⟨ha, hb⟩ := F32.le_no_nan h
  rw [F32.fmax_nn ha hb]
  simp [F32.lt_false_of_le h]

theorem F32.lt_posInf_left (a : F32) : F32.lt F32.posInf a = false := by
  cases a <;> rfl

theorem F32.lt_negInf_right (a : F32) : F32.lt a F32.negInf = false := by
  cases a <;> rfl

theorem F32.fmin_posInf_left {a : F32} (ha : a.isNan = false) :
    F32.fmin F32.posInf a = a := by
  have hpi : (F32.posInf).isNan = false := rfl
  rw [F32.fmin_nn hpi ha, F32.lt_posInf_left]
  rfl

theorem F32.fmax_negInf_left {a : F32} (ha : a.isNan = false) :
    F32.fmax F32.negInf a = a := by
  have hni : (F32.negInf).isNan = false := rfl
  rw [F32.fmax_nn hni ha, F32.lt_negInf_right]
  rfl

theorem F32.fmin_negInf_right (a : F32) : F32.fmin a F32.negInf = F32.negInf := by
  cases a <;> simp [F32.fmin, F32.lt, F32.isNan]

theorem F32.fmax_posInf_right (a : F32) : F32.fmax a F32.posInf = F32.posInf := by
  cases a <;> simp [F32.fmax, F32.lt, F32.isNan]

/-- Growing the empty box by a well-formed box's two corners reproduces the
box: the left-identity direction of the union law. -/
theorem empty_union_eq_self {b : AABB}
    (hx : F32.le b.low.x b.high.x = true)
    (hy : F32.le b.low.y b.high.y = true)
    (hz : F32.le b.low.z b.high.z = true) :
    AABB.empty.union b = b := by
  obtain ⟨⟨blx, bly, blz⟩, ⟨bhx, bhy, bhz⟩⟩ := b
  simp only at hx hy hz
  unfold AABB.union AABB.grow AABB.empty
  simp only [AABB.mk.injEq, V3.mk.injEq]
  exact ⟨⟨by rw [F32.fmin_posInf_left (F32.le_no_nan hx).1, F32.fmin_of_le hx],
          by rw [F32.fmin_posInf_left (F32.le_no_nan hy).1, F32.fmin_of_le hy],
          by rw [F32.fmin_posInf_left (F32.le_no_nan hz).1, F32.fmin_of_le hz]⟩,
         by rw [F32.fmax_negInf_left (F32.le_no_nan hx).1, F32.fmax_of_le hx],
         by rw [F32.fmax_negInf_left (F32.le_no_nan hy).1, F32.fmax_of_le hy],
         by rw [F32.fmax_negInf_left (F32.le_no_nan hz).1, F32.fmax_of_le hz]⟩

/-- Growing any box by the empty box's corners `(+∞)^3` then `(-∞)^3`
produces the all-space box. -/
theorem union_empty_eq_all (b : AABB) :
    b.union AABB.empty
      = ⟨⟨.negInf, .negInf, .negInf⟩, ⟨.posInf, .posInf, .posInf⟩⟩ := by
  obtain ⟨⟨blx, bly, blz⟩, ⟨bhx, bhy, bhz⟩⟩ := b
  have htop : F32.fmax F32.posInf F32.negInf = F32.posInf := by decide
  unfold AABB.union AABB.grow AABB.empty
  simp only [AABB.mk.injEq, V3.mk.injEq]
  exact ⟨⟨F32.fmin_negInf_right _, F32.fmin_negInf_right _, F32.fmin_negInf_right _⟩,
         by rw [F32.fmax_posInf_right, htop],
         by rw [F32.fmax_posInf_right, htop],
         by rw [F32.fmax_posInf_right, htop]⟩

/-! ### Concrete, well-formed geometry used by witnesses and counterexamples -/

/-- The unit box `[0, 1]^3`: finite, non-NaN, `low ≤ high`, centroid
`(1/2, 1/2, 1/2)`. -/
def unitBox : AABB :=
  ⟨⟨.fin 0, .fin 0, .fin 0⟩, ⟨.fin 1, .fin 1, .fin 1⟩⟩

/-- A second well-formed box, disjoint from `unitBox`, centroid
`(5/2, 1/2, 1/2)`. -/
def farBox : AABB :=
  ⟨⟨.fin 2, .fin 0, .fin 0⟩, ⟨.fin 3, .fin 1, .fin 1⟩⟩

/-! ### The claims -/

/-- C1: the claim says construction never panics on well-formed bounded
objects when `max_cap ≥ 1`, the surface-array indexing staying in bounds.
The code contradicts it: on the first SAH cost iteration (`left_count = 1`)
`right_surfaces[right_count]` is read at `right_count = n - 1` while the
vector holds only `n - 1` entries (valid indices `0 .. n - 2`), so two
perfectly well-formed axis-aligned boxes with finite coordinates and non-NaN
centroids already panic with an index-out-of-bounds as soon as
`n > max_cap`.  This theorem evaluates the embedded construction at that
failing input. -/
theorem sah_right_surfaces_index_panic :
    with_max_capacity id AABB.centroid [unitBox, farBox] 1
      = .error .indexOutOfBounds := by decide

/-- C2: after a (successful) `with_max_capacity` build, `is_sound` returns
`true` on the reordered slice paired with the tree, and every object index
lies in exactly one leaf range. -/
theorem is_sound_after_with_max_capacity (aabbF : O → AABB) (cenF : O → V3)
    (objects : List O) (max_cap : Nat) (res : List O × BVH)
    (h : with_max_capacity aabbF cenF objects max_cap = .ok res) :
    is_sound aabbF res.2 res.1 = .ok true ∧
    ∀ i < res.1.length, coverCount (leafRanges res.2.tree) i = 1 := by
  rw [wmc_ok_char h]
  refine ⟨is_sound_root_leaf aabbF objects, ?_⟩
  intro i hi
  exact coverCount_root_leaf _ _ _ (by simpa using hi)

theorem is_sound_after_with_max_capacity_witness :
    is_sound id
        (([unitBox, farBox],
          (⟨.leaf (bounds_from_slice id [unitBox, farBox]) 0 2⟩ : BVH)) : List AABB × BVH).2
        (([unitBox, farBox],
          (⟨.leaf (bounds_from_slice id [unitBox, farBox]) 0 2⟩ : BVH)) : List AABB × BVH).1
      = .ok true ∧
    ∀ i < (([unitBox, farBox],
          (⟨.leaf (bounds_from_slice id [unitBox, farBox]) 0 2⟩ : BVH)) : List AABB × BVH).1.length,
      coverCount (leafRanges (([unitBox, farBox],
          (⟨.leaf (bounds_from_slice id [unitBox, farBox]) 0 2⟩ : BVH)) : List AABB × BVH).2.tree) i = 1 :=
  is_sound_after_with_max_capacity id AABB.centroid [unitBox, farBox] 32 _ (by decide)

/-- C3: for the exact reordered slice paired with a built tree, the
(spec-modelled) traversal `walk` returns the same nearest hit as the
brute-force linear scan calling `intersect` on every object: `none` exactly
when the scan finds no hit, otherwise the same object identity (index in the
paired slice) with the same minimal distance. -/
theorem walk_matches_linear_scan (aabbF : O → AABB) (cenF : O → V3)
    (intersect : Ray → O → Option F32) (ray : Ray)
    (objects : List O) (max_cap : Nat) (res : List O × BVH)
    (h : with_max_capacity aabbF cenF objects max_cap = .ok res) :
    BVH.walk intersect res.2 ray res.1 = linear_scan intersect ray res.1 := by
  rw [wmc_ok_char h]
  exact walk_root_leaf intersect ray objects _

theorem walk_matches_linear_scan_witness :
    BVH.walk (fun r a => r.aabb_intersection a)
        (([unitBox, farBox],
          (⟨.leaf (bounds_from_slice id [unitBox, farBox]) 0 2⟩ : BVH)) : List AABB × BVH).2
        (Ray.new ⟨.fin 0, .fin 0, .fin 0⟩ ⟨.fin 1, .fin 0, .fin 0⟩)
        (([unitBox, farBox],
          (⟨.leaf (bounds_from_slice id [unitBox, farBox]) 0 2⟩ : BVH)) : List AABB × BVH).1
      = linear_scan (fun r a => r.aabb_intersection a)
        (Ray.new ⟨.fin 0, .fin 0, .fin 0⟩ ⟨.fin 1, .fin 0, .fin 0⟩)
        (([unitBox, farBox],
          (⟨.leaf (bounds_from_slice id [unitBox, farBox]) 0 2⟩ : BVH)) : List AABB × BVH).1 :=
  walk_matches_linear_scan id AABB.centroid (fun r a => r.aabb_intersection a)
    (Ray.new ⟨.fin 0, .fin 0, .fin 0⟩ ⟨.fin 1, .fin 0, .fin 0⟩)
    [unitBox, farBox] 32 _ (by decide)

/-- C4 (counterexample): union with the empty box is *not* a two-sided
identity under the code's `union_mut` (grow by the other's low corner, then
its high corner).  Growing by the empty box's `low = (+∞)^3` pushes `high`
to `+∞`, and growing by its `high = (-∞)^3` pushes `low` to `-∞`: for the
unit box `b`, `b.union(&empty())` is the all-space box, not `b`; and
`empty().union(&empty())` is the all-space box, not the empty box. -/
theorem union_empty_right_identity_fails :
    AABB.beq (unitBox.union AABB.empty) unitBox = false ∧
    AABB.beq (AABB.empty.union AABB.empty) AABB.empty = false := by decide

/-- C4 (amended): `AABB::empty().union(&b) == b` holds for every box `b`
whose corners satisfy `low ≤ high` componentwise (an `f32` `<=`, which also
rules NaN out); but `union` with the empty box on the right is not an
identity: `b.union(&AABB::empty())` is the all-space box
`[(-∞)^3, (+∞)^3]` for every `b`, so in particular
`empty().union(&empty())` is the all-space box rather than the empty box. -/
theorem union_empty_left_identity (b : AABB)
    (hx : F32.le b.low.x b.high.x = true)
    (hy : F32.le b.low.y b.high.y = true)
    (hz : F32.le b.low.z b.high.z = true) :
    AABB.beq (AABB.empty.union b) b = true ∧
    b.union AABB.empty
      = ⟨⟨.negInf, .negInf, .negInf⟩, ⟨.posInf, .posInf, .posInf⟩⟩ := by
  constructor
  · rw [empty_union_eq_self hx hy hz]
    obtain ⟨hxl, hxh⟩ := F32.le_no_nan hx
    obtain ⟨hyl, hyh⟩ := F32.le_no_nan hy
    obtain ⟨hzl, hzh⟩ := F32.le_no_nan hz
    exact AABB.beq_refl_box ⟨hxl, hyl, hzl, hxh, hyh, hzh⟩
  · exact union_empty_eq_all b

theorem union_empty_left_identity_witness :
    AABB.beq (AABB.empty.union unitBox) unitBox = true ∧
    unitBox.union AABB.empty
      = ⟨⟨.negInf, .negInf, .negInf⟩, ⟨.posInf, .posInf, .posInf⟩⟩ :=
  union_empty_left_identity unitBox (by decide) (by decide) (by decide)

/-- C5: building from a slice of length 0 terminates normally for every
capacity (the length-0 capacity test `0 ≤ max_cap` always takes the leaf
branch), producing a root `Leaf` with the empty `AABB` and the range
`[0, 0)` — and likewise through `build`. -/
theorem build_empty_slice_leaf (aabbF : O → AABB) (cenF : O → V3) :
    (∀ max_cap, with_max_capacity aabbF cenF ([] : List O) max_cap
      = .ok ([], ⟨.leaf AABB.empty 0 0⟩)) ∧
    build aabbF cenF ([] : List O) = .ok ([], ⟨.leaf AABB.empty 0 0⟩) := by
  constructor
  · intro max_cap
    exact wmc_ok_of_le (by simp)
  · exact wmc_ok_of_le (by simp)

/-- C6 (counterexample): called on the range `[0, 1)` of a two-object slice
(with a capacity large enough to terminate at once), `build_node` stores as
the leaf's bounds the union over the *whole* slice, which differs from the
fold of `union` over the objects of `[0, 1)` alone: the claim's
"exactly the objects at indices `[begin, end)`" fails. -/
theorem build_node_range_bounds_counterexample :
    build_node id AABB.centroid 3 [unitBox, farBox] 0 1 5
      = .ok ([unitBox, farBox], .leaf (bounds_from_slice id [unitBox, farBox]) 0 1)
    ∧ bounds_from_slice id [unitBox, farBox]
      ≠ bounds_from_slice id (([unitBox, farBox].drop 0).take (1 - 0)) := by decide

/-- C6 (amended): in every recursive construction step the bounds stored in
the produced node equal the fold of `union`, starting from `AABB::empty()`,
over the AABBs of *all* objects of the slice (`bounds_from_slice` is called
on the whole slice, not on the `[begin, end)` sub-range).  For nodes
produced through `with_max_capacity`, whose range is always `[0, n)`, this
coincides with the fold over `[begin, end)`. -/
theorem build_node_bounds_whole_slice (aabbF : O → AABB) (cenF : O → V3)
    (fuel : Nat) (objects : List O) (b e max_cap : Nat) (res : List O × Node)
    (h : build_node aabbF cenF fuel objects b e max_cap = .ok res) :
    res.2.bounds = bounds_from_slice aabbF objects :=
  build_node_bounds h

theorem build_node_bounds_whole_slice_witness :
    (([unitBox, farBox],
        Node.leaf (bounds_from_slice id [unitBox, farBox]) 0 1) : List AABB × Node).2.bounds
      = bounds_from_slice id [unitBox, farBox] :=
  build_node_bounds_whole_slice id AABB.centroid 3 [unitBox, farBox] 0 1 5 _ (by decide)

/-- C7: a slice of length 1 yields a tree whose root is a single `Leaf`
covering `[0, 1)` for *every* `max_cap`, `0` included: with `max_cap = 0`
the slice falls through the capacity test into the SAH evaluation, which
finds no candidate split and returns cost `+∞`, and the no-split fallback
(`cost ≥ n`) emits the leaf. -/
theorem singleton_always_single_leaf (aabbF : O → AABB) (cenF : O → V3)
    (o : O) (max_cap : Nat) :
    with_max_capacity aabbF cenF [o] max_cap
      = .ok ([o], ⟨.leaf (bounds_from_slice aabbF [o]) 0 1⟩) :=
  wmc_ok_one aabbF cenF o max_cap

/-- C8: the three concrete slab-test cases of the spec, with the
axis-aligned (zero direction component, infinite `inv_direction`) axes
resolved purely by comparisons: entry distance 1 for the box ahead on `+X`;
exit distance 1 when the origin is inside; `none` for the `+Y` ray that
misses. -/
theorem aabb_intersection_examples :
    (Ray.new ⟨.fin 0, .fin 0, .fin 0⟩ ⟨.fin 1, .fin 0, .fin 0⟩).aabb_intersection
        (AABB.with_bounds ⟨.fin 1, .fin (-1), .fin (-1)⟩ ⟨.fin 3, .fin 1, .fin 1⟩)
      = some (.fin 1) ∧
    (Ray.new ⟨.fin 0, .fin 0, .fin 0⟩ ⟨.fin 1, .fin 0, .fin 0⟩).aabb_intersection
        (AABB.with_bounds ⟨.fin (-1), .fin (-1), .fin (-1)⟩ ⟨.fin 1, .fin 1, .fin 1⟩)
      = some (.fin 1) ∧
    (Ray.new ⟨.fin 0, .fin 0, .fin 0⟩ ⟨.fin 0, .fin 1, .fin 0⟩).aabb_intersection
        (AABB.with_bounds ⟨.fin 1, .fin (-1), .fin (-1)⟩ ⟨.fin 3, .fin 1, .fin 1⟩)
      = none := by decide

/-- C9: for `max_cap ≥ 1`, `with_max_capacity` returns normally exactly when
`n ≤ max_cap`, and every normal return is the untouched slice paired with a
tree consisting of exactly one `Leaf` with `begin = 0` and `end = n`; no
`Internal` node is ever produced on a non-panicking execution. -/
theorem with_max_capacity_ok_iff_single_leaf (aabbF : O → AABB)
    (cenF : O → V3) (objects : List O) (max_cap : Nat) (h1 : 1 ≤ max_cap) :
    ((∃ res, with_max_capacity aabbF cenF objects max_cap = .ok res)
        ↔ objects.length ≤ max_cap) ∧
    ∀ res, with_max_capacity aabbF cenF objects max_cap = .ok res →
      res = (objects, ⟨.leaf (bounds_from_slice aabbF objects) 0 objects.length⟩) := by
  refine ⟨⟨?_, ?_⟩, fun res h => wmc_ok_char h⟩
  · rintro ⟨res, hres⟩
    by_contra hgt
    obtain ⟨p, hp⟩ := @wmc_err O aabbF cenF objects max_cap (by omega) (by omega)
    rw [hp] at hres
    cases hres
  · intro hle
    exact ⟨_, wmc_ok_of_le hle⟩

theorem with_max_capacity_ok_iff_single_leaf_witness :
    ((∃ res, with_max_capacity id AABB.centroid [unitBox] 1 = .ok res)
        ↔ [unitBox].length ≤ 1) ∧
    ∀ res, with_max_capacity id AABB.centroid [unitBox] 1 = .ok res →
      res = ([unitBox], ⟨.leaf (bounds_from_slice id [unitBox]) 0 [unitBox].length⟩) :=
  with_max_capacity_ok_iff_single_leaf id AABB.centroid [unitBox] 1 (by decide)

/-- C10: when the slice length is at most `max_cap`, `with_max_capacity`
returns the very slice it was given — no element is modified or moved, the
reordering side effect does not occur on this path. -/
theorem no_reorder_under_capacity (aabbF : O → AABB) (cenF : O → V3)
    (objects : List O) (max_cap : Nat) (h : objects.length ≤ max_cap) :
    with_max_capacity aabbF cenF objects max_cap
      = .ok (objects, ⟨.leaf (bounds_from_slice aabbF objects) 0 objects.length⟩) :=
  wmc_ok_of_le h

theorem no_reorder_under_capacity_witness :
    with_max_capacity id AABB.centroid [farBox, unitBox] 2
      = .ok ([farBox, unitBox],
          ⟨.leaf (bounds_from_slice id [farBox, unitBox]) 0 [farBox, unitBox].length⟩) :=
  no_reorder_under_capacity id AABB.centroid [farBox, unitBox] 2 (by decide)

end Beevee

